import Mathlib

/-!
# vncbrute: key derivation, handshake, credential source and worker pool

A shallow embedding of `vncbrute.stdlib.go`.

* Bytes are natural numbers; a Go `[]byte` or the raw bytes of a Go `string`
  are a `List Nat`.
* The network is an oracle: a connection carries the outcomes of the
  successive `conn.Read` and `conn.Write` calls, and records every payload
  handed to `conn.Write`.
* The DES block cipher of `crypto/des` is a parameter `E key block`.
* The password file is the list of the runes its reads deliver up to the end
  of the file or the first read error; `bufio.Scanner` cuts it into tokens
  and stops at a line that does not fit its 64 KiB buffer.
* The goroutines of `main` are a step function on a shared state, driven by
  a schedule that picks which goroutine takes its next atomic step.
-/

namespace VncBrute

/-! ## Key derivation -/

/-- Go `flipBits`: the loop `for i := 0; i < 8; i++` that sets bit `7 - i` of
`result` when bit `i` of `b` is set. -/
def flipBits (b : Nat) : Nat :=
  (List.range 8).foldl
    (fun result i => if b &&& (1 <<< i) ≠ 0 then result ||| (1 <<< (7 - i)) else result) 0

/-- Go `adjustPassword`: `adjusted := make([]byte, 8)` followed by the loop
`for i := 0; i < len(password) && i < 8; i++`. -/
def adjustPassword (password : List Nat) : List Nat :=
  (List.range (min password.length 8)).foldl
    (fun adjusted i => adjusted.set i (flipBits (password.getD i 0))) (List.replicate 8 0)

/-! ## Challenge encryption -/

/-- Go `cipher.Block.Encrypt(dst, src)` of `crypto/des`: panics (here `none`)
when `src` or `dst` is shorter than one block, otherwise overwrites the first
8 bytes of `dst` with the encryption of the first 8 bytes of `src`. -/
def blockEncrypt (E : List Nat → List Nat → List Nat) (key dst src : List Nat) :
    Option (List Nat) :=
  if src.length < 8 then none
  else if dst.length < 8 then none
  else some (E key (src.take 8) ++ dst.drop 8)

/-- Go `encryptVNC`: `none` stands for the process dying, either in `log.Fatalf`
(`des.NewCipher` rejects a key that is not 8 bytes long) or in a panic of a
slice expression or of `Encrypt`. -/
def encryptVNC (E : List Nat → List Nat → List Nat) (challenge password : List Nat) :
    Option (List Nat) :=
  let adjustedPassword := adjustPassword password
  if adjustedPassword.length ≠ 8 then none
  else
    let encryptedChallenge := List.replicate 16 0
    if challenge.length < 8 then none
    else
      match blockEncrypt E adjustedPassword (encryptedChallenge.take 8) (challenge.take 8) with
      | none => none
      | some lo =>
        let encryptedChallenge := lo ++ encryptedChallenge.drop 8
        match blockEncrypt E adjustedPassword (encryptedChallenge.drop 8) (challenge.drop 8) with
        | none => none
        | some hi => some (encryptedChallenge.take 8 ++ hi)

/-! ## One authentication attempt -/

/-- What one `conn.Read` call does: the bytes it copies to the front of the
caller's buffer (`n` of them in Go, a count the caller discards) and whether
it returns a non-nil error. -/
structure ReadResult where
  data : List Nat
  err : Bool
deriving DecidableEq

/-- A connection: the outcomes of the `Read` calls still to come, for each
`Write` call still to come whether it returns a non-nil error, and the
payloads handed to `Write` so far. -/
structure Conn where
  reads : List ReadResult
  writeErrs : List Bool
  sent : List (List Nat)
deriving DecidableEq

/-- Go `conn.Read(buf)`: the delivered bytes overwrite a prefix of `buf`, the
rest of `buf` keeps its contents. A connection with no outcome left fails. -/
def connRead (conn : Conn) (buf : List Nat) : Conn × List Nat × Bool :=
  match conn.reads with
  | [] => (conn, buf, true)
  | r :: rest =>
    ({ conn with reads := rest }, r.data.take buf.length ++ buf.drop r.data.length, r.err)

/-- Go `conn.Write(p)`: the payload is recorded whatever the outcome. A
connection with no outcome left fails. -/
def connWrite (conn : Conn) (p : List Nat) : Conn × Bool :=
  match conn.writeErrs with
  | [] => ({ conn with sent := conn.sent ++ [p] }, true)
  | e :: rest => ({ conn with writeErrs := rest, sent := conn.sent ++ [p] }, e)

/-- Go `contains`: linear search of a byte in a slice. -/
def contains (slice : List Nat) (item : Nat) : Bool :=
  match slice with
  | [] => false
  | v :: rest => if v = item then true else contains rest item

/-- The value `attemptVNCConnection` returns, with the payloads it handed to
`conn.Write` on the way. -/
structure Attempt where
  result : Bool
  sent : List (List Nat)
deriving DecidableEq

/-- Go `attemptVNCConnection`: `dial` is the outcome of `dialer.DialContext`
(`none` for an error). The result is `none` when the process dies inside
`encryptVNC`. -/
def attemptVNCConnection (E : List Nat → List Nat → List Nat) (dial : Option Conn)
    (password : List Nat) : Option Attempt :=
  match dial with
  | none => some ⟨false, []⟩
  | some conn =>
    let r1 := connRead conn (List.replicate 12 0)
    let versionBuf := r1.2.1
    if r1.2.2 then some ⟨false, r1.1.sent⟩
    else
      let w1 := connWrite r1.1 versionBuf
      if w1.2 then some ⟨false, w1.1.sent⟩
      else
        let r2 := connRead w1.1 (List.replicate 1 0)
        let secTypesLen := r2.2.1
        if r2.2.2 then some ⟨false, r2.1.sent⟩
        else
          let r3 := connRead r2.1 (List.replicate (secTypesLen.getD 0 0) 0)
          let secTypes := r3.2.1
          if r3.2.2 then some ⟨false, r3.1.sent⟩
          else if !contains secTypes 2 then some ⟨false, r3.1.sent⟩
          else
            let w2 := connWrite r3.1 [2]
            if w2.2 then some ⟨false, w2.1.sent⟩
            else
              let r4 := connRead w2.1 (List.replicate 16 0)
              let challenge := r4.2.1
              if r4.2.2 then some ⟨false, r4.1.sent⟩
              else
                match encryptVNC E challenge password with
                | none => none
                | some encryptedChallenge =>
                  let w3 := connWrite r4.1 encryptedChallenge
                  if w3.2 then some ⟨false, w3.1.sent⟩
                  else
                    let r5 := connRead w3.1 (List.replicate 4 0)
                    let response := r5.2.1
                    if r5.2.2 then some ⟨false, r5.1.sent⟩
                    else some ⟨response.getD 3 0 == 0, r5.1.sent⟩

/-- A server that behaves: every read succeeds and delivers what the server
sent for that step, every write succeeds. -/
def serverConn (banner : List Nat) (count : Nat) (types challenge status : List Nat) : Conn :=
  { reads := [⟨banner, false⟩, ⟨[count], false⟩, ⟨types, false⟩, ⟨challenge, false⟩,
      ⟨status, false⟩],
    writeErrs := [false, false, false],
    sent := [] }

/-- The 12-byte banner `RFB 003.008\n`. -/
def rfbBanner : List Nat := [82, 70, 66, 32, 48, 48, 51, 46, 48, 48, 56, 10]

/-- A stand-in block cipher for concrete runs: the block XOR the key. -/
def xorCipher (key block : List Nat) : List Nat :=
  List.zipWith (fun k b => k ^^^ b) key block

/-! ## Credential source -/

/-- Go `unicode.IsSpace`, which `strings.TrimSpace` uses: in Latin-1 the runes
tab, line feed, vertical tab, form feed, carriage return, space, U+0085 and
U+00A0; beyond Latin-1 the rest of the White_Space table. -/
def isSpace (r : Char) : Bool :=
  let c := r.toNat
  if c ≤ 0xFF then
    c == 0x09 || c == 0x0A || c == 0x0B || c == 0x0C || c == 0x0D || c == 0x20 ||
      c == 0x85 || c == 0xA0
  else
    c == 0x1680 || (0x2000 ≤ c && c ≤ 0x200A) || c == 0x2028 || c == 0x2029 ||
      c == 0x202F || c == 0x205F || c == 0x3000

/-- Go `strings.TrimSpace`: the string without its leading and trailing white
space. -/
def TrimSpace (s : List Char) : List Char :=
  (s.dropWhile isSpace).rdropWhile isSpace

/-- What `readPasswords` has done when it returns: the values it handed to
the channel, in order, and whether it reached `close(ch)`. -/
structure Produced where
  sent : List (List Char)
  closed : Bool
deriving DecidableEq

/-- The `for scanner.Scan()` loop of `readPasswords` over the tokens the
scanner yields. `done k` says whether the `select` reached after `k` values
were handed over takes the `<-ctx.Done()` case. -/
def readPasswordsLoop (done : Nat → Bool) : List (List Char) → List (List Char) → Produced
  | [], sent => ⟨sent, true⟩
  | line :: rest, sent =>
    let password := TrimSpace line
    if password = [] then readPasswordsLoop done rest sent
    else if done sent.length then ⟨sent, false⟩
    else readPasswordsLoop done rest (sent ++ [password])

/-- Go `bufio.MaxScanTokenSize`: the size a default scanner lets its buffer
grow to. -/
def maxScanTokenSize : Nat := 64 * 1024

/-- Go `utf8.RuneLen`: the number of bytes a rune takes in the file. -/
def runeLen (r : Char) : Nat :=
  let c := r.toNat
  if c < 0x80 then 1 else if c < 0x800 then 2 else if c < 0x10000 then 3 else 4

/-- The number of bytes of a piece of the file. -/
def byteLen (s : List Char) : Nat :=
  (s.map runeLen).sum

/-- Go `dropCR` of `bufio`: a token without its final carriage return. -/
def dropCR (data : List Char) : List Char :=
  if data.getLast? = some '\r' then data.dropLast else data

/-- The successive `scanner.Scan()` / `scanner.Text()` of a default
`bufio.Scanner` (split function `ScanLines`), rune by rune: `token` is the
unfinished line held in the buffer. A line feed ends the token, which is
delivered without its final carriage return; at the end of the data a
non-empty unfinished line is delivered too. A line of `maxScanTokenSize`
bytes or more never fits the buffer together with its line feed (nor, at the
end of the data, before the end is seen): `Scan` then returns false
(`ErrTooLong`) and nothing more is delivered. -/
def scanAux : List Char → List Char → List (List Char)
  | [], token =>
    if token = [] then []
    else if maxScanTokenSize ≤ byteLen token then []
    else [dropCR token]
  | c :: rest, token =>
    if c = '\n' then
      if maxScanTokenSize ≤ byteLen token then []
      else dropCR token :: scanAux rest []
    else scanAux rest (token ++ [c])

/-- The tokens a fresh default `bufio.Scanner` yields on `data`. -/
def scanLines (data : List Char) : List (List Char) :=
  scanAux data []

/-- The lines of a text, in the spec's words (newline-separated): the text
is cut at every line feed, and a text that ends in a line feed has no empty
line after it. `cur` is the line being read. -/
def sourceLinesAux : List Char → List Char → List (List Char)
  | [], cur => if cur = [] then [] else [cur]
  | c :: rest, cur =>
    if c = '\n' then cur :: sourceLinesAux rest []
    else sourceLinesAux rest (cur ++ [c])

/-- The lines of the text `data`. -/
def sourceLines (data : List Char) : List (List Char) :=
  sourceLinesAux data []

/-- Go `readPasswords` on a file that delivers `data`:
`scanner := bufio.NewScanner(file)` and the `for scanner.Scan()` loop;
`scanner.Err()` is never consulted and `close(ch)` follows the loop. -/
def readPasswords (done : Nat → Bool) (data : List Char) : Produced :=
  readPasswordsLoop done (scanLines data) []

/-- The file `a`, a line of 70000 `x`, `b`, each line ended by a line
feed. -/
def longLineFile : List Char :=
  'a' :: '\n' :: (List.replicate 70000 'x' ++ ['\n', 'b', '\n'])

/-- A context that is never cancelled. -/
def neverDone : Nat → Bool := fun _ => false

/-- The pre-scan of `main`: `atomic.AddInt64(&total, 1)` once for every
successful `totalScanner.Scan()`, over the tokens the scanner yields. -/
def countTotal (lines : List (List Char)) : Nat :=
  lines.foldl (fun total _ => total + 1) 0

/-! ## Worker pool -/

/-- Where a worker goroutine of `main` stands: the next atomic step it will
take. -/
inductive PC where
  | select
  | load (password : List Char)
  | attempt (password : List Char)
  | cas (password : List Char)
  | print (password : List Char)
  | cancel
  | exit
  | add
  | returned
deriving DecidableEq

/-- The state shared by the goroutines of `main`. `printed` is the list of
`Password found` lines written so far, each with the index of the worker that
wrote it; `casWins` is the history of the workers whose
`CompareAndSwapInt32(&found, 0, 1)` returned true. -/
structure Run where
  found : Nat
  current : Nat
  total : Nat
  ctxDone : Bool
  exited : Bool
  capacity : Nat
  passwordCh : List (List Char)
  chClosed : Bool
  lines : List (List Char)
  readerReturned : Bool
  workers : List PC
  printed : List (Nat × List Char)
  casWins : List Nat
deriving DecidableEq

/-- One scheduling decision: the goroutine that takes its next step, with
the choice the environment makes there (which ready case a `select` takes,
what `attemptVNCConnection` returns). -/
inductive Event where
  | reader (preferDone : Bool)
  | worker (w : Nat) (choice : Bool)
deriving DecidableEq

/-- One iteration of the `readPasswords` goroutine against the shared
channel. A `select` with no ready case leaves the state as it is. -/
def readerStep (s : Run) (preferDone : Bool) : Run :=
  if s.exited || s.readerReturned then s
  else
    match s.lines with
    | [] => { s with chClosed := true, readerReturned := true }
    | line :: rest =>
      let password := TrimSpace line
      if password = [] then { s with lines := rest }
      else
        let canSend := decide (s.passwordCh.length < s.capacity)
        if s.ctxDone && (preferDone || !canSend) then { s with readerReturned := true }
        else if canSend then { s with lines := rest, passwordCh := s.passwordCh ++ [password] }
        else s

/-- One atomic step of worker `w`, following the body of the goroutine
started in the `for i := 0; i < *concurrency; i++` loop of `main`. -/
def workerStep (s : Run) (w : Nat) (choice : Bool) : Run :=
  if s.exited then s
  else
    match s.workers[w]? with
    | none => s
    | some PC.select =>
      let canRecv := !s.passwordCh.isEmpty || s.chClosed
      if s.ctxDone && (choice || !canRecv) then { s with workers := s.workers.set w PC.returned }
      else
        match s.passwordCh with
        | password :: rest =>
          { s with passwordCh := rest, workers := s.workers.set w (PC.load password) }
        | [] =>
          if s.chClosed then { s with workers := s.workers.set w PC.returned } else s
    | some (PC.load password) =>
      if s.found = 1 then { s with workers := s.workers.set w PC.returned }
      else { s with workers := s.workers.set w (PC.attempt password) }
    | some (PC.attempt password) =>
      if choice then { s with workers := s.workers.set w (PC.cas password) }
      else { s with workers := s.workers.set w PC.add }
    | some (PC.cas password) =>
      if s.found = 0 then
        { s with found := 1, casWins := s.casWins ++ [w],
                 workers := s.workers.set w (PC.print password) }
      else { s with workers := s.workers.set w PC.returned }
    | some (PC.print password) =>
      { s with printed := s.printed ++ [(w, password)], workers := s.workers.set w PC.cancel }
    | some PC.cancel => { s with ctxDone := true, workers := s.workers.set w PC.exit }
    | some PC.exit => { s with exited := true, workers := s.workers.set w PC.returned }
    | some PC.add => { s with current := s.current + 1, workers := s.workers.set w PC.select }
    | some PC.returned => s

/-- The step the scheduled goroutine takes. -/
def step (s : Run) (e : Event) : Run :=
  match e with
  | Event.reader preferDone => readerStep s preferDone
  | Event.worker w choice => workerStep s w choice

/-- The state after a whole schedule. -/
def run (s : Run) (schedule : List Event) : Run :=
  schedule.foldl step s

/-- The state of `main` once the pre-scan is over and the goroutines are
started: `concurrency` workers at the top of their loop, a channel of that
capacity, `found` and `current` zero. -/
def mainInit (concurrency : Nat) (lines : List (List Char)) : Run :=
  { found := 0, current := 0, total := countTotal lines, ctxDone := false, exited := false,
    capacity := concurrency, passwordCh := [], chClosed := false, lines := lines,
    readerReturned := false, workers := List.replicate concurrency PC.select,
    printed := [], casWins := [] }

/-- The invariant of the worker pool: `found` counts the successful
compare-and-swaps and is at most 1, every printed line comes from a worker
whose compare-and-swap succeeded, and a worker that is about to print has won
the compare-and-swap while nothing is printed yet. -/
def Inv (s : Run) : Prop :=
  s.found = s.casWins.length ∧ s.found ≤ 1 ∧
  (∀ r ∈ s.printed, r.1 ∈ s.casWins) ∧
  (∀ j password, s.workers[j]? = some (PC.print password) → s.printed = [] ∧ j ∈ s.casWins) ∧
  s.printed.length ≤ 1

/-! ## Theorems: key derivation -/

theorem and_bit_mod (b i : Nat) (hi : i < 8) : b &&& (1 <<< i) = (b % 256) &&& (1 <<< i) := by
  apply Nat.eq_of_testBit_eq
  intro j
  have h256 : (256 : Nat) = 2 ^ 8 := by norm_num
  rw [Nat.testBit_and, Nat.testBit_and, h256, Nat.testBit_mod_two_pow, Nat.one_shiftLeft,
    Nat.testBit_two_pow]
  by_cases hj : i = j
  · subst hj; simp [hi]
  · simp [hj]

theorem flipBits_mod (b : Nat) : flipBits b = flipBits (b % 256) := by
  unfold flipBits
  apply List.foldl_ext
  intro result i hi
  rw [and_bit_mod b i (by simpa using hi)]

set_option maxRecDepth 100000 in
theorem flipBits_bits_byte :
    ∀ b < 256, ∀ j < 8, (flipBits b).testBit j = b.testBit (7 - j) := by
  decide

set_option maxRecDepth 100000 in
theorem flipBits_flipBits_byte : ∀ b < 256, flipBits (flipBits b) = b := by
  decide

set_option maxRecDepth 100000 in
theorem flipBits_lt_byte : ∀ b < 256, flipBits b < 256 := by
  decide

theorem flipBits_lt (b : Nat) : flipBits b < 256 := by
  rw [flipBits_mod]
  exact flipBits_lt_byte _ (Nat.mod_lt _ (by norm_num))

theorem flipBits_testBit (b j : Nat) (hj : j < 8) :
    (flipBits b).testBit j = b.testBit (7 - j) := by
  rw [flipBits_mod, flipBits_bits_byte _ (Nat.mod_lt _ (by norm_num)) j hj]
  have h256 : (256 : Nat) = 2 ^ 8 := by norm_num
  rw [h256, Nat.testBit_mod_two_pow]
  simp
  omega

theorem adjustPassword_loop (password : List Nat) (n : Nat) (hn : n ≤ 8)
    (hL : n ≤ password.length) :
    (List.range n).foldl
      (fun adjusted i => adjusted.set i (flipBits (password.getD i 0))) (List.replicate 8 0)
      = (password.take n).map flipBits ++ List.replicate (8 - n) 0 := by
  induction n with
  | zero => simp
  | succ k ih =>
    rw [List.range_succ, List.foldl_append, ih (by omega) (by omega)]
    have hlen : ((password.take k).map flipBits).length = k := by
      simp; omega
    have hrep : List.replicate (8 - k) 0 = (0 : Nat) :: List.replicate (8 - (k + 1)) 0 := by
      rw [← List.replicate_succ]; congr 1; omega
    have htake : password.take (k + 1) = password.take k ++ [password.getD k 0] := by
      rw [List.take_succ]
      congr 1
      rw [List.getD_eq_getElem?_getD, List.getElem?_eq_getElem (by omega)]
      simp
    simp only [List.foldl_cons, List.foldl_nil]
    rw [hrep, htake, List.map_append, List.append_assoc]
    rw [List.set_append_right _ _ (by rw [hlen]), hlen, Nat.sub_self, List.set_cons_zero]
    rfl

theorem adjustPassword_eq (password : List Nat) :
    adjustPassword password
      = (password.take 8).map flipBits ++ List.replicate (8 - password.length) 0 := by
  unfold adjustPassword
  rw [adjustPassword_loop password _ (Nat.min_le_right _ _) (Nat.min_le_left _ _)]
  rcases Nat.le_total password.length 8 with h | h
  · rw [Nat.min_eq_left h, List.take_of_length_le h, List.take_of_length_le (le_refl _)]
  · rw [Nat.min_eq_right h]
    have : 8 - password.length = 0 := by omega
    simp [this]

theorem adjustPassword_length (password : List Nat) : (adjustPassword password).length = 8 := by
  rw [adjustPassword_eq]
  simp
  omega

theorem adjustPassword_getElem?_lt (password : List Nat) (i b : Nat) (hi : i < 8)
    (hb : password[i]? = some b) : (adjustPassword password)[i]? = some (flipBits b) := by
  have hiL : i < password.length := by
    rcases Nat.lt_or_ge i password.length with h | h
    · exact h
    · rw [List.getElem?_eq_none h] at hb; cases hb
  rw [adjustPassword_eq, List.getElem?_append_left (by simp; omega)]
  rw [List.getElem?_map, List.getElem?_take_of_lt hi, hb]
  rfl

theorem adjustPassword_getElem?_ge (password : List Nat) (i : Nat) (hi : i < 8)
    (hL : password.length ≤ i) : (adjustPassword password)[i]? = some 0 := by
  rw [adjustPassword_eq, List.take_of_length_le (by omega),
    List.getElem?_append_right (by simpa using hL)]
  rw [List.getElem?_replicate]
  simp
  omega

/-- C1: for every password, `adjustPassword` returns exactly 8 bytes; at every
index `i < 8` inside the password the byte is the bit reversal of password
byte `i` (bit `j` of the result is bit `7 - j` of the input for `j` in 0..7,
and no higher bit is set), at every index `i < 8` past the end of the password
the byte is 0; the bytes of the password from index 8 on have no influence:
any password with the same first 8 bytes gives the same key. -/
theorem adjustPassword_spec (password : List Nat) (i : Nat) (hi : i < 8) :
    (adjustPassword password).length = 8 ∧
    (∀ b, password[i]? = some b →
      (adjustPassword password)[i]? = some (flipBits b) ∧ flipBits b < 256 ∧
      ∀ j, j < 8 → (flipBits b).testBit j = b.testBit (7 - j)) ∧
    (password.length ≤ i → (adjustPassword password)[i]? = some 0) ∧
    (∀ other : List Nat, other.take 8 = password.take 8 →
      adjustPassword other = adjustPassword password) := by
  refine ⟨adjustPassword_length password, ?_, adjustPassword_getElem?_ge password i hi, ?_⟩
  · intro b hb
    exact ⟨adjustPassword_getElem?_lt password i b hi hb, flipBits_lt b,
      fun j hj => flipBits_testBit b j hj⟩
  · intro other h
    have hlen : 8 - other.length = 8 - password.length := by
      have h1 := congrArg List.length h
      simp only [List.length_take] at h1
      omega
    rw [adjustPassword_eq, adjustPassword_eq, h, hlen]

/-- Witness of C1: the 9-byte password 1, 2, ..., 9 at index 1. -/
theorem adjustPassword_spec_witness :
    (1 < 8) ∧ (adjustPassword [1, 2, 3, 4, 5, 6, 7, 8, 9]).length = 8 ∧
    (adjustPassword [1, 2, 3, 4, 5, 6, 7, 8, 9])[1]? = some 64 :=
  ⟨by decide, (adjustPassword_spec [1, 2, 3, 4, 5, 6, 7, 8, 9] 1 (by decide)).1,
    ((adjustPassword_spec [1, 2, 3, 4, 5, 6, 7, 8, 9] 1 (by decide)).2.1 2 (by decide)).1⟩

/-- C2: for every byte value `b`, reversing the bit order twice returns `b`. -/
theorem flipBits_involutive (b : Nat) (hb : b < 256) : flipBits (flipBits b) = b :=
  flipBits_flipBits_byte b hb

/-- Witness of C2: the byte 0xB5. -/
theorem flipBits_involutive_witness : (181 < 256) ∧ flipBits (flipBits 181) = 181 :=
  ⟨by decide, flipBits_involutive 181 (by decide)⟩

/-! ## Theorems: challenge encryption -/

theorem blockEncrypt_block (E : List Nat → List Nat → List Nat) (key dst src : List Nat)
    (hd : dst.length = 8) (hs : src.length = 8) :
    blockEncrypt E key dst src = some (E key src) := by
  have h1 : src.take 8 = src := List.take_of_length_le (by omega)
  have h2 : dst.drop 8 = [] := List.drop_of_length_le (by omega)
  simp [blockEncrypt, hd, hs, h1, h2]

theorem encryptVNC_eq (E : List Nat → List Nat → List Nat)
    (hE : ∀ k b : List Nat, k.length = 8 → b.length = 8 → (E k b).length = 8)
    (challenge password : List Nat) (hc : challenge.length = 16) :
    encryptVNC E challenge password
      = some (E (adjustPassword password) (challenge.take 8)
          ++ E (adjustPassword password) (challenge.drop 8)) := by
  have hk := adjustPassword_length password
  have h1 : (challenge.take 8).length = 8 := by simp [hc]
  have h2 : (challenge.drop 8).length = 8 := by simp [hc]
  have hlo := hE _ _ hk h1
  have hhi := hE _ _ hk h2
  have hb1 : blockEncrypt E (adjustPassword password) ((List.replicate 16 0).take 8)
      (challenge.take 8) = some (E (adjustPassword password) (challenge.take 8)) :=
    blockEncrypt_block E _ _ _ (by simp) h1
  have hb2 : blockEncrypt E (adjustPassword password)
      ((E (adjustPassword password) (challenge.take 8)
        ++ (List.replicate 16 0).drop 8).drop 8) (challenge.drop 8)
      = some (E (adjustPassword password) (challenge.drop 8)) :=
    blockEncrypt_block E _ _ _ (by rw [List.drop_left' hlo]; simp) h2
  unfold encryptVNC
  simp only [hk, ne_eq, not_true_eq_false, if_false, hc, hb1, hb2]
  simp [List.take_left' hlo]

/-- C3: for every 16-byte challenge and every password, with the block cipher
`E` any function that maps an 8-byte key and an 8-byte block to an 8-byte
block, `encryptVNC` returns the 16 bytes `E key c[0..8]` followed by
`E key c[8..16]` where `key = adjustPassword password`; the second half of the
response is the same for any challenge with the same second half, and the
first half for any challenge with the same first half. -/
theorem encryptVNC_independent_blocks (E : List Nat → List Nat → List Nat)
    (hE : ∀ k b : List Nat, k.length = 8 → b.length = 8 → (E k b).length = 8)
    (challenge password : List Nat) (hc : challenge.length = 16) :
    encryptVNC E challenge password
      = some (E (adjustPassword password) (challenge.take 8)
          ++ E (adjustPassword password) (challenge.drop 8)) ∧
    (E (adjustPassword password) (challenge.take 8)
          ++ E (adjustPassword password) (challenge.drop 8)).length = 16 ∧
    (∀ other : List Nat, other.length = 16 → other.drop 8 = challenge.drop 8 →
      (encryptVNC E other password).map (List.drop 8)
        = (encryptVNC E challenge password).map (List.drop 8)) ∧
    (∀ other : List Nat, other.length = 16 → other.take 8 = challenge.take 8 →
      (encryptVNC E other password).map (List.take 8)
        = (encryptVNC E challenge password).map (List.take 8)) := by
  have hk := adjustPassword_length password
  have hlo : ∀ c : List Nat, c.length = 16 →
      (E (adjustPassword password) (c.take 8)).length = 8 :=
    fun c h => hE _ _ hk (by simp [h])
  have hhi : ∀ c : List Nat, c.length = 16 →
      (E (adjustPassword password) (c.drop 8)).length = 8 :=
    fun c h => hE _ _ hk (by simp [h])
  refine ⟨encryptVNC_eq E hE challenge password hc, ?_, ?_, ?_⟩
  · rw [List.length_append, hlo challenge hc, hhi challenge hc]
  · intro other ho h
    rw [encryptVNC_eq E hE other password ho, encryptVNC_eq E hE challenge password hc]
    simp only [Option.map_some']
    rw [List.drop_left' (hlo other ho), List.drop_left' (hlo challenge hc), h]
  · intro other ho h
    rw [encryptVNC_eq E hE other password ho, encryptVNC_eq E hE challenge password hc]
    simp only [Option.map_some']
    rw [List.take_left' (hlo other ho), List.take_left' (hlo challenge hc), h]

theorem xorCipher_length (k b : List Nat) (hk : k.length = 8) (hb : b.length = 8) :
    (xorCipher k b).length = 8 := by
  simp [xorCipher, hk, hb]

/-- Witness of C3: the XOR stand-in cipher, the challenge 0, 1, ..., 15 and
the password `ab`. -/
theorem encryptVNC_independent_blocks_witness :
    (List.range 16).length = 16 ∧
    encryptVNC xorCipher (List.range 16) [97, 98]
      = some [134, 71, 2, 3, 4, 5, 6, 7, 142, 79, 10, 11, 12, 13, 14, 15] :=
  ⟨by decide,
    (encryptVNC_independent_blocks xorCipher xorCipher_length (List.range 16) [97, 98]
      (by decide)).1.trans (by decide)⟩

/-! ## Theorems: one authentication attempt -/

theorem contains_iff (slice : List Nat) (item : Nat) :
    contains slice item = true ↔ item ∈ slice := by
  induction slice with
  | nil => simp [contains]
  | cons v rest ih =>
    unfold contains
    by_cases h : v = item
    · simp [h]
    · simp [h, ih, Ne.symm h]

/-- The buffer a successful `Read` leaves behind. -/
theorem connRead_cons (r : ReadResult) (rest : List ReadResult) (w : List Bool)
    (sent : List (List Nat)) (buf : List Nat) :
    connRead ⟨r :: rest, w, sent⟩ buf
      = (⟨rest, w, sent⟩, r.data.take buf.length ++ buf.drop r.data.length, r.err) := rfl

theorem connWrite_cons (reads : List ReadResult) (e : Bool) (rest : List Bool)
    (sent : List (List Nat)) (p : List Nat) :
    connWrite ⟨reads, e :: rest, sent⟩ p = (⟨reads, rest, sent ++ [p]⟩, e) := rfl

theorem fill_length (data buf : List Nat) :
    (data.take buf.length ++ buf.drop data.length).length = buf.length := by
  simp
  omega

/-- The run of `attemptVNCConnection` against a server that answers every
step, once `0x02` is found in the security-type buffer. -/
theorem attemptVNCConnection_serverConn (E : List Nat → List Nat → List Nat)
    (hE : ∀ k b : List Nat, k.length = 8 → b.length = 8 → (E k b).length = 8)
    (banner : List Nat) (count : Nat) (types challenge status password : List Nat)
    (hoffer : 2 ∈ types.take count) :
    ∃ sent, attemptVNCConnection E (some (serverConn banner count types challenge status))
        password
      = some ⟨(status.take 4 ++ (List.replicate 4 0).drop status.length).getD 3 0 == 0, sent⟩ := by
  have hcont : contains (types.take (List.replicate count 0).length
      ++ (List.replicate count 0).drop types.length) 2 = true := by
    rw [contains_iff]
    simp only [List.length_replicate]
    exact List.mem_append_left _ hoffer
  have hlen := fill_length challenge (List.replicate 16 0)
  rw [List.length_replicate] at hlen
  have henc := encryptVNC_eq E hE _ password hlen
  simp only [attemptVNCConnection, serverConn, connRead_cons, connWrite_cons]
  simp only [List.length_replicate, List.drop_replicate] at hcont henc ⊢
  have hcnt : (List.take 1 [count] ++ List.replicate (1 - [count].length) 0).getD 0 0
      = count := rfl
  simp only [hcnt, Bool.false_eq_true, if_false, hcont, Bool.not_true, henc]
  exact ⟨_, rfl⟩

/-- C4: when the dial, the version exchange, the security negotiation (with
type `0x02` offered), the challenge read and the response write all succeed
and a full 4-byte status word is read, `attemptVNCConnection` returns, and it
returns true if and only if the fourth byte of the status word is 0. -/
theorem attemptVNCConnection_success_iff (E : List Nat → List Nat → List Nat)
    (hE : ∀ k b : List Nat, k.length = 8 → b.length = 8 → (E k b).length = 8)
    (banner : List Nat) (count : Nat) (types challenge status password : List Nat)
    (hoffer : 2 ∈ types.take count) (hstatus : status.length = 4) :
    ∃ a, attemptVNCConnection E (some (serverConn banner count types challenge status))
        password = some a ∧
      (a.result = true ↔ status[3]? = some 0) := by
  obtain ⟨sent, h⟩ :=
    attemptVNCConnection_serverConn E hE banner count types challenge status password hoffer
  refine ⟨_, h, ?_⟩
  obtain ⟨s0, s1, s2, s3, rfl⟩ : ∃ s0 s1 s2 s3, status = [s0, s1, s2, s3] := by
    match status, hstatus with
    | [s0, s1, s2, s3], _ => exact ⟨s0, s1, s2, s3, rfl⟩
  simp

/-- Witness of C4: a server that offers only type 2 and answers the status
word 00 00 00 00. -/
theorem attemptVNCConnection_success_iff_witness :
    (2 ∈ ([2] : List Nat).take 1) ∧ ([0, 0, 0, 0] : List Nat).length = 4 ∧
    ∃ a, attemptVNCConnection xorCipher
        (some (serverConn rfbBanner 1 [2] (List.replicate 16 7) [0, 0, 0, 0])) [97, 98] = some a ∧
      (a.result = true ↔ ([0, 0, 0, 0] : List Nat)[3]? = some 0) :=
  ⟨by decide, by decide,
    attemptVNCConnection_success_iff xorCipher xorCipher_length rfbBanner 1 [2]
      (List.replicate 16 7) [0, 0, 0, 0] [97, 98] (by decide) (by decide)⟩

/-- C5 as stated fails: the status word 01 00 00 00 is not zero, yet the
attempt returns true. -/
theorem status_nonzero_reports_success :
    ([1, 0, 0, 0] : List Nat) ≠ [0, 0, 0, 0] ∧
    (attemptVNCConnection xorCipher
      (some (serverConn rfbBanner 1 [2] (List.replicate 16 7) [1, 0, 0, 0])) [97, 98]).map
        Attempt.result = some true := by
  decide

/-- C5, amended: when the handshake completes and a full 4-byte status word is
read, `attemptVNCConnection` returns false whenever the fourth byte of the
status word is not 0, and returns true for the status word 00 00 00 00. -/
theorem attemptVNCConnection_status_word (E : List Nat → List Nat → List Nat)
    (hE : ∀ k b : List Nat, k.length = 8 → b.length = 8 → (E k b).length = 8)
    (banner : List Nat) (count : Nat) (types challenge status password : List Nat)
    (hoffer : 2 ∈ types.take count) (hstatus : status.length = 4) :
    ∃ a, attemptVNCConnection E (some (serverConn banner count types challenge status))
        password = some a ∧
      (status[3]? ≠ some 0 → a.result = false) ∧
      (status = [0, 0, 0, 0] → a.result = true) := by
  obtain ⟨sent, h⟩ :=
    attemptVNCConnection_serverConn E hE banner count types challenge status password hoffer
  refine ⟨_, h, ?_, ?_⟩
  · obtain ⟨s0, s1, s2, s3, rfl⟩ : ∃ s0 s1 s2 s3, status = [s0, s1, s2, s3] := by
      match status, hstatus with
      | [s0, s1, s2, s3], _ => exact ⟨s0, s1, s2, s3, rfl⟩
    simp
  · rintro rfl
    rfl

/-- Witness of C5 amended: the status word 00 00 00 01. -/
theorem attemptVNCConnection_status_word_witness :
    (2 ∈ ([2] : List Nat).take 1) ∧ ([0, 0, 0, 1] : List Nat).length = 4 ∧
    ∃ a, attemptVNCConnection xorCipher
        (some (serverConn rfbBanner 1 [2] (List.replicate 16 7) [0, 0, 0, 1])) [97, 98] = some a ∧
      (([0, 0, 0, 1] : List Nat)[3]? ≠ some 0 → a.result = false) ∧
      (([0, 0, 0, 1] : List Nat) = [0, 0, 0, 0] → a.result = true) :=
  ⟨by decide, by decide,
    attemptVNCConnection_status_word xorCipher xorCipher_length rfbBanner 1 [2]
      (List.replicate 16 7) [0, 0, 0, 1] [97, 98] (by decide) (by decide)⟩

theorem connRead_sent (conn : Conn) (buf : List Nat) : (connRead conn buf).1.sent = conn.sent := by
  unfold connRead
  split <;> rfl

theorem connRead_reads (conn : Conn) (buf : List Nat) :
    (connRead conn buf).1.reads = conn.reads.tail := by
  unfold connRead
  split <;> simp_all

theorem connWrite_sent (conn : Conn) (p : List Nat) :
    (connWrite conn p).1.sent = conn.sent ++ [p] := by
  unfold connWrite
  split <;> rfl

theorem connWrite_reads (conn : Conn) (p : List Nat) :
    (connWrite conn p).1.reads = conn.reads := by
  unfold connWrite
  split <;> rfl

theorem connRead_buf_length (conn : Conn) (buf : List Nat) :
    (connRead conn buf).2.1.length = buf.length := by
  unfold connRead
  split
  · rfl
  · exact fill_length _ _

theorem connRead_contains_false (conn : Conn) (n : Nat)
    (h : ∀ r, conn.reads.head? = some r → 2 ∉ r.data) :
    contains (connRead conn (List.replicate n 0)).2.1 2 = false := by
  rw [Bool.eq_false_iff, Ne, contains_iff]
  unfold connRead
  split
  · intro hmem
    have := List.eq_of_mem_replicate hmem
    omega
  · rename_i r rest hr
    intro hmem
    rcases List.mem_append.1 hmem with h1 | h1
    · exact h r (by simp [hr]) (List.mem_of_mem_take h1)
    · have := List.eq_of_mem_replicate (List.mem_of_mem_drop h1)
      omega

/-- C6: when the security types the server delivers do not contain `0x02`,
whatever their count and whatever the password, `attemptVNCConnection` returns
false and has written at most the 12-byte banner echo: no type-selection byte
and no challenge response. -/
theorem attemptVNCConnection_no_vnc_auth (E : List Nat → List Nat → List Nat)
    (dial : Option Conn) (password : List Nat)
    (hfresh : ∀ conn, dial = some conn → conn.sent = [])
    (htypes : ∀ conn r, dial = some conn → conn.reads[2]? = some r → 2 ∉ r.data) :
    ∃ a, attemptVNCConnection E dial password = some a ∧ a.result = false ∧
      (a.sent = [] ∨ ∃ versionBuf : List Nat, versionBuf.length = 12 ∧ a.sent = [versionBuf]) := by
  cases dial with
  | none => exact ⟨_, rfl, rfl, Or.inl rfl⟩
  | some conn =>
    have hs : conn.sent = [] := hfresh _ rfl
    have hv : (connRead conn (List.replicate 12 0)).2.1.length = 12 := by
      rw [connRead_buf_length, List.length_replicate]
    have hc : ∀ n, contains (connRead (connRead (connWrite (connRead conn
        (List.replicate 12 0)).1 (connRead conn (List.replicate 12 0)).2.1).1
        (List.replicate 1 0)).1 (List.replicate n 0)).2.1 2 = false := by
      intro n
      apply connRead_contains_false
      intro r hr
      apply htypes conn r rfl
      rw [connRead_reads, connWrite_reads, connRead_reads] at hr
      rcases hreads : conn.reads with _ | ⟨r1, _ | ⟨r2, _ | ⟨r3, rest⟩⟩⟩
      · rw [hreads] at hr; cases hr
      · rw [hreads] at hr; cases hr
      · rw [hreads] at hr; cases hr
      · rw [hreads] at hr
        simpa using hr
    have hs1 : (connRead conn (List.replicate 12 0)).1.sent = [] := by
      rw [connRead_sent, hs]
    have hs2 : (connWrite (connRead conn (List.replicate 12 0)).1
        (connRead conn (List.replicate 12 0)).2.1).1.sent
        = [(connRead conn (List.replicate 12 0)).2.1] := by
      rw [connWrite_sent, hs1]; rfl
    have hs3 : ∀ buf, (connRead (connWrite (connRead conn (List.replicate 12 0)).1
        (connRead conn (List.replicate 12 0)).2.1).1 buf).1.sent
        = [(connRead conn (List.replicate 12 0)).2.1] := by
      intro buf; rw [connRead_sent, hs2]
    have hs4 : ∀ buf buf2, (connRead (connRead (connWrite (connRead conn
        (List.replicate 12 0)).1 (connRead conn (List.replicate 12 0)).2.1).1 buf).1 buf2).1.sent
        = [(connRead conn (List.replicate 12 0)).2.1] := by
      intro buf buf2; rw [connRead_sent, hs3]
    simp only [attemptVNCConnection]
    generalize connRead conn (List.replicate 12 0) = r1 at hv hc hs1 hs2 hs3 hs4 ⊢
    by_cases h1 : r1.2.2 = true
    · rw [if_pos h1]
      exact ⟨_, rfl, rfl, Or.inl hs1⟩
    rw [if_neg h1]
    generalize connWrite r1.1 r1.2.1 = w1 at hc hs2 hs3 hs4 ⊢
    by_cases h2 : w1.2 = true
    · rw [if_pos h2]
      exact ⟨_, rfl, rfl, Or.inr ⟨_, hv, hs2⟩⟩
    rw [if_neg h2]
    have hs3a := hs3 (List.replicate 1 0)
    have hs4a := hs4 (List.replicate 1 0)
    generalize connRead w1.1 (List.replicate 1 0) = r2 at hc hs3a hs4a ⊢
    by_cases h3 : r2.2.2 = true
    · rw [if_pos h3]
      exact ⟨_, rfl, rfl, Or.inr ⟨_, hv, hs3a⟩⟩
    rw [if_neg h3]
    have hca := hc (r2.2.1.getD 0 0)
    have hs4b := hs4a (List.replicate (r2.2.1.getD 0 0) 0)
    generalize connRead r2.1 (List.replicate (r2.2.1.getD 0 0) 0) = r3 at hca hs4b ⊢
    by_cases h4 : r3.2.2 = true
    · rw [if_pos h4]
      exact ⟨_, rfl, rfl, Or.inr ⟨_, hv, hs4b⟩⟩
    rw [if_neg h4, if_pos (by rw [hca]; rfl)]
    exact ⟨_, rfl, rfl, Or.inr ⟨_, hv, hs4b⟩⟩

/-- Witness of C6: a server that offers only the types 1 and 16. -/
theorem attemptVNCConnection_no_vnc_auth_witness :
    ∃ a, attemptVNCConnection xorCipher
        (some (serverConn rfbBanner 2 [1, 16] (List.replicate 16 7) [0, 0, 0, 0])) [97, 98]
        = some a ∧ a.result = false ∧
      (a.sent = [] ∨ ∃ versionBuf : List Nat, versionBuf.length = 12 ∧ a.sent = [versionBuf]) :=
  attemptVNCConnection_no_vnc_auth xorCipher
    (some (serverConn rfbBanner 2 [1, 16] (List.replicate 16 7) [0, 0, 0, 0])) [97, 98]
    (by intro conn h; cases h; rfl)
    (by
      intro conn r h hr
      cases h
      have hr3 : r = ⟨[1, 16], false⟩ := by
        simpa [serverConn] using hr.symm
      subst hr3
      decide)

/-- C7 fails on the code: the server answers the status word 00 00 00 01 and
the `Read` of the status delivers only its first three bytes, without an
error; the fourth byte of the buffer is still 0 and the attempt returns
true. -/
theorem short_status_read_reports_success :
    ([0, 0, 0] : List Nat) = ([0, 0, 0, 1] : List Nat).take 3 ∧
    ([0, 0, 0] : List Nat).length < 4 ∧
    (attemptVNCConnection xorCipher
      (some (serverConn rfbBanner 1 [2] (List.replicate 16 7) [0, 0, 0])) [97, 98]).map
        Attempt.result = some true := by
  decide

/-! ## Theorems: credential source -/

theorem TrimSpace_head (s : List Char) (x : Char) (h : (TrimSpace s).head? = some x) :
    isSpace x = false := by
  have hne : TrimSpace s ≠ [] := by
    intro h0; rw [h0] at h; cases h
  have hpre : TrimSpace s <+: s.dropWhile isSpace := List.rdropWhile_prefix isSpace _
  have hne2 : s.dropWhile isSpace ≠ [] := by
    intro h0
    rw [h0] at hpre
    exact hne (List.prefix_nil.1 hpre)
  have hhead := hpre.head hne
  have hx : (TrimSpace s).head hne = x := by
    rw [List.head?_eq_head hne] at h
    exact Option.some.inj h
  have := List.head_dropWhile_not isSpace s hne2
  rw [← hx, hhead]
  exact this

theorem TrimSpace_getLast (s : List Char) (x : Char) (h : (TrimSpace s).getLast? = some x) :
    isSpace x = false := by
  have hne : TrimSpace s ≠ [] := by
    intro h0; rw [h0] at h; cases h
  have hx : (TrimSpace s).getLast hne = x := by
    rw [List.getLast?_eq_getLast _ hne] at h
    exact Option.some.inj h
  have := List.rdropWhile_last_not (p := isSpace) (l := s.dropWhile isSpace) hne
  rw [← hx]
  simpa [TrimSpace] using this

theorem readPasswordsLoop_neverDone (done : Nat → Bool) (hdone : ∀ k, done k = false)
    (lines sent : List (List Char)) :
    readPasswordsLoop done lines sent
      = ⟨sent ++ (lines.map TrimSpace).filter (fun password => decide (password ≠ [])), true⟩ := by
  induction lines generalizing sent with
  | nil => simp [readPasswordsLoop]
  | cons line rest ih =>
    unfold readPasswordsLoop
    by_cases h : TrimSpace line = []
    · simp [h, ih]
    · simp [h, hdone, ih]

theorem scanAux_eq (data token : List Char) :
    scanAux data token
      = ((sourceLinesAux data token).takeWhile
          (fun l => decide (byteLen l < maxScanTokenSize))).map dropCR := by
  induction data generalizing token with
  | nil =>
    unfold scanAux sourceLinesAux
    by_cases ht : token = []
    · simp [ht]
    · by_cases hlen : maxScanTokenSize ≤ byteLen token
      · simp [ht, hlen, List.takeWhile_cons]
      · simp [ht, hlen, List.takeWhile_cons, Nat.lt_of_not_le hlen]
  | cons c rest ih =>
    unfold scanAux sourceLinesAux
    by_cases hc : c = '\n'
    · by_cases hlen : maxScanTokenSize ≤ byteLen token
      · simp [hc, hlen, List.takeWhile_cons]
      · simp [hc, hlen, List.takeWhile_cons, Nat.lt_of_not_le hlen, ih]
    · simp [hc, ih]

/-- The scanner delivers the lines of the data that come before the first
line of `maxScanTokenSize` bytes or more, each without its final carriage
return. -/
theorem scanLines_eq (data : List Char) :
    scanLines data
      = ((sourceLines data).takeWhile
          (fun l => decide (byteLen l < maxScanTokenSize))).map dropCR :=
  scanAux_eq data []

theorem scanLines_of_short (data : List Char)
    (hshort : ∀ l ∈ sourceLines data, byteLen l < maxScanTokenSize) :
    scanLines data = (sourceLines data).map dropCR := by
  rw [scanLines_eq]
  congr 1
  rw [List.takeWhile_eq_self_iff]
  intro l hl
  simpa using hshort l hl

theorem isSpace_cr : isSpace '\r' = true := by decide

theorem TrimSpace_dropCR (l : List Char) : TrimSpace (dropCR l) = TrimSpace l := by
  unfold dropCR
  split
  · rename_i hlast
    have hl : l = l.dropLast ++ ['\r'] :=
      (List.dropLast_append_getLast? '\r' (by simp [hlast])).symm
    generalize l.dropLast = front at hl
    subst hl
    unfold TrimSpace
    by_cases hall : ∀ a ∈ front, isSpace a = true
    · rw [List.dropWhile_append_of_pos hall]
      have h1 : List.dropWhile isSpace front = [] := List.dropWhile_eq_nil_iff.2 hall
      have h2 : List.dropWhile isSpace ['\r'] = [] := by
        rw [List.dropWhile_eq_nil_iff]
        intro x hx
        rw [List.mem_singleton.1 hx]
        exact isSpace_cr
      rw [h1, h2]
    · have hne : List.dropWhile isSpace front ≠ [] := by
        intro h0
        exact hall (List.dropWhile_eq_nil_iff.1 h0)
      rw [List.dropWhile_append, if_neg (by simpa using hne),
        List.rdropWhile_concat_pos _ _ _ isSpace_cr]
  · rfl

theorem map_TrimSpace_dropCR (lines : List (List Char)) :
    (lines.map dropCR).map TrimSpace = lines.map TrimSpace := by
  rw [List.map_map]
  apply List.map_congr_left
  intro l _
  exact TrimSpace_dropCR l

theorem readPasswords_neverDone (done : Nat → Bool) (hdone : ∀ k, done k = false)
    (data : List Char) :
    readPasswords done data
      = ⟨((scanLines data).map TrimSpace).filter (fun password => decide (password ≠ [])),
          true⟩ := by
  unfold readPasswords
  rw [readPasswordsLoop_neverDone done hdone]
  rfl

theorem scanAux_replicate (n : Nat) (c : Char) (hc : c ≠ '\n') (rest token : List Char) :
    scanAux (List.replicate n c ++ rest) token = scanAux rest (token ++ List.replicate n c) := by
  induction n generalizing token with
  | zero => simp
  | succ k ih =>
    rw [List.replicate_succ, List.cons_append, scanAux, if_neg hc, ih,
      List.append_assoc, List.singleton_append]

theorem sourceLinesAux_replicate (n : Nat) (c : Char) (hc : c ≠ '\n')
    (rest cur : List Char) :
    sourceLinesAux (List.replicate n c ++ rest) cur
      = sourceLinesAux rest (cur ++ List.replicate n c) := by
  induction n generalizing cur with
  | zero => simp
  | succ k ih =>
    rw [List.replicate_succ, List.cons_append, sourceLinesAux, if_neg hc, ih,
      List.append_assoc, List.singleton_append]

theorem byteLen_replicate_x (n : Nat) : byteLen (List.replicate n 'x') = n := by
  unfold byteLen
  rw [List.map_replicate, List.sum_replicate]
  have h : runeLen 'x' = 1 := by decide
  rw [h]
  simp

theorem TrimSpace_replicate_x (n : Nat) :
    TrimSpace (List.replicate n 'x') = List.replicate n 'x' := by
  have hx : ¬ (isSpace 'x' = true) := by decide
  unfold TrimSpace
  have h1 : List.dropWhile isSpace (List.replicate n 'x') = List.replicate n 'x' := by
    cases n with
    | zero => rfl
    | succ k => rw [List.replicate_succ, List.dropWhile_cons_of_neg hx]
  rw [h1, List.rdropWhile_eq_self_iff]
  intro hl
  have hmem := List.getLast_mem hl
  rw [List.eq_of_mem_replicate hmem]
  exact hx

theorem scanLines_long_line (n : Nat) (hn : maxScanTokenSize ≤ n) :
    scanLines ('a' :: '\n' :: (List.replicate n 'x' ++ ['\n', 'b', '\n'])) = [['a']] := by
  have ha : ('a' : Char) ≠ '\n' := by decide
  have hx : ('x' : Char) ≠ '\n' := by decide
  have hshort : ¬ (maxScanTokenSize ≤ byteLen ['a']) := by decide
  have hda : dropCR ['a'] = ['a'] := by decide
  unfold scanLines
  rw [scanAux, if_neg ha, List.nil_append, scanAux, if_pos rfl, if_neg hshort, hda,
    scanAux_replicate n 'x' hx, List.nil_append, scanAux, if_pos rfl,
    if_pos (by rw [byteLen_replicate_x]; exact hn)]

theorem sourceLines_long_line (n : Nat) :
    sourceLines ('a' :: '\n' :: (List.replicate n 'x' ++ ['\n', 'b', '\n']))
      = [['a'], List.replicate n 'x', ['b']] := by
  have ha : ('a' : Char) ≠ '\n' := by decide
  have hb : ('b' : Char) ≠ '\n' := by decide
  have hx : ('x' : Char) ≠ '\n' := by decide
  unfold sourceLines
  rw [sourceLinesAux, if_neg ha, List.nil_append, sourceLinesAux, if_pos rfl,
    sourceLinesAux_replicate n 'x' hx, List.nil_append, sourceLinesAux, if_pos rfl,
    sourceLinesAux, if_neg hb, List.nil_append, sourceLinesAux, if_pos rfl, sourceLinesAux,
    if_pos rfl]

theorem candidates_long_line (n : Nat) (hn : 0 < n) :
    ((sourceLines ('a' :: '\n' :: (List.replicate n 'x' ++ ['\n', 'b', '\n']))).map
        TrimSpace).filter (fun password => decide (password ≠ []))
      = [['a'], List.replicate n 'x', ['b']] := by
  have h1 : TrimSpace ['a'] = ['a'] := by decide
  have h2 : TrimSpace ['b'] = ['b'] := by decide
  have h3 : List.replicate n 'x' ≠ [] := by
    intro h0
    have := congrArg List.length h0
    simp at this
    omega
  rw [sourceLines_long_line]
  simp only [List.map_cons, List.map_nil, h1, h2, TrimSpace_replicate_x]
  rw [List.filter_cons_of_pos (by decide), List.filter_cons_of_pos (by simpa using h3),
    List.filter_cons_of_pos (by decide), List.filter_nil]

/-- C8 as stated fails: on the file `a`, a line of 70000 `x`, `b`, with the
context never cancelled, `readPasswords` hands over `a` only and closes the
channel, because the scanner stops at the line that does not fit its buffer
and its error is never consulted; the source's trimmed non-empty lines are
`a`, the 70000 `x`, and `b`. -/
theorem readPasswords_stops_at_long_line :
    readPasswords neverDone longLineFile = ⟨[['a']], true⟩ ∧
    ((sourceLines longLineFile).map TrimSpace).filter (fun password => decide (password ≠ []))
      = [['a'], List.replicate 70000 'x', ['b']] ∧
    (readPasswords neverDone longLineFile).sent
      ≠ ((sourceLines longLineFile).map TrimSpace).filter
          (fun password => decide (password ≠ [])) := by
  have hsent : readPasswords neverDone longLineFile = ⟨[['a']], true⟩ := by
    rw [readPasswords_neverDone neverDone (fun _ => rfl)]
    unfold longLineFile
    rw [scanLines_long_line 70000 (by decide)]
    decide
  have hlines := candidates_long_line 70000 (by decide)
  refine ⟨hsent, hlines, ?_⟩
  rw [hsent]
  unfold longLineFile
  rw [hlines]
  intro h
  injection h with _ h2
  cases h2

/-- C8, amended: for every file whose lines are all shorter than
`maxScanTokenSize` (65536) bytes, when the context is never cancelled, the values
`readPasswords` hands to the channel are the file's lines, each trimmed of
leading and trailing white space, without the lines that are empty after
trimming, in source order, and the channel is then closed; every value handed
over is non-empty and neither starts nor ends with a white-space rune. -/
theorem readPasswords_no_cancel (done : Nat → Bool) (data : List Char)
    (hdone : ∀ k, done k = false)
    (hshort : ∀ l ∈ sourceLines data, byteLen l < maxScanTokenSize) :
    readPasswords done data
      = ⟨((sourceLines data).map TrimSpace).filter (fun password => decide (password ≠ [])),
          true⟩ ∧
    ∀ c ∈ (readPasswords done data).sent,
      c ≠ [] ∧ (∀ x, c.head? = some x → isSpace x = false) ∧
      (∀ x, c.getLast? = some x → isSpace x = false) := by
  have heq : readPasswords done data
      = ⟨((sourceLines data).map TrimSpace).filter (fun password => decide (password ≠ [])),
          true⟩ := by
    rw [readPasswords_neverDone done hdone, scanLines_of_short data hshort,
      map_TrimSpace_dropCR]
  refine ⟨heq, ?_⟩
  intro c hc
  rw [heq] at hc
  obtain ⟨hmem, hne⟩ := List.mem_filter.1 hc
  obtain ⟨line, _, rfl⟩ := List.mem_map.1 hmem
  exact ⟨by simpa using hne, TrimSpace_head line, TrimSpace_getLast line⟩

/-- Witness of C8 amended: a file of five lines, two of them blank, one ended
by carriage return and line feed, the last one without a line feed. -/
theorem readPasswords_no_cancel_witness :
    (∀ k, neverDone k = false) ∧
    (∀ l ∈ sourceLines ['a', '\n', '\n', ' ', ' ', 'b', ' ', 'c', ' ', '\t', '\r', '\n',
        ' ', '\r', '\n', 'd'], byteLen l < maxScanTokenSize) ∧
    readPasswords neverDone ['a', '\n', '\n', ' ', ' ', 'b', ' ', 'c', ' ', '\t', '\r', '\n',
        ' ', '\r', '\n', 'd']
      = ⟨[['a'], ['b', ' ', 'c'], ['d']], true⟩ :=
  ⟨fun _ => rfl, by decide,
    (readPasswords_no_cancel neverDone
      ['a', '\n', '\n', ' ', ' ', 'b', ' ', 'c', ' ', '\t', '\r', '\n', ' ', '\r', '\n', 'd']
      (fun _ => rfl) (by decide)).1.trans (by decide)⟩

/-- C9 fails on the code: for the file `a`, empty line, `b` (each ended by a
line feed) the scanner yields three tokens and the pre-scan of `main` counts
3, while `readPasswords` produces 2 candidates; with one worker and every
attempt failing, the run ends with `current = 2` and `total = 3`. -/
theorem countTotal_counts_blank_lines :
    scanLines ['a', '\n', '\n', 'b', '\n'] = [['a'], [], ['b']] ∧
    countTotal (scanLines ['a', '\n', '\n', 'b', '\n']) = 3 ∧
    (readPasswords neverDone ['a', '\n', '\n', 'b', '\n']).sent = [['a'], ['b']] ∧
    (readPasswords neverDone ['a', '\n', '\n', 'b', '\n']).sent.length = 2 ∧
    (run (mainInit 1 (scanLines ['a', '\n', '\n', 'b', '\n']))
      [Event.reader false, Event.worker 0 false, Event.worker 0 false, Event.worker 0 false,
        Event.worker 0 false, Event.reader false, Event.reader false, Event.reader false,
        Event.worker 0 false, Event.worker 0 false, Event.worker 0 false, Event.worker 0 false,
        Event.worker 0 false]).current = 2 ∧
    (run (mainInit 1 (scanLines ['a', '\n', '\n', 'b', '\n']))
      [Event.reader false, Event.worker 0 false, Event.worker 0 false, Event.worker 0 false,
        Event.worker 0 false, Event.reader false, Event.reader false, Event.reader false,
        Event.worker 0 false, Event.worker 0 false, Event.worker 0 false, Event.worker 0 false,
        Event.worker 0 false]).total = 3 ∧
    (run (mainInit 1 (scanLines ['a', '\n', '\n', 'b', '\n']))
      [Event.reader false, Event.worker 0 false, Event.worker 0 false, Event.worker 0 false,
        Event.worker 0 false, Event.reader false, Event.reader false, Event.reader false,
        Event.worker 0 false, Event.worker 0 false, Event.worker 0 false, Event.worker 0 false,
        Event.worker 0 false]).workers = [PC.returned] := by
  decide

/-! ## Theorems: worker pool -/

theorem Inv_mainInit (concurrency : Nat) (lines : List (List Char)) :
    Inv (mainInit concurrency lines) := by
  refine ⟨rfl, Nat.zero_le _, ?_, ?_, Nat.zero_le _⟩
  · intro r hr
    cases hr
  · intro j password hj
    simp only [mainInit] at hj
    rw [List.getElem?_replicate] at hj
    split at hj <;> cases hj

/-- A step that moves one worker to a point other than the print, and leaves
`found`, the history and the output alone, keeps the invariant. -/
theorem Inv_set (s t : Run) (w : Nat) (pc : PC) (hpc : ∀ password, pc ≠ PC.print password)
    (h : Inv s) (hf : t.found = s.found) (hc : t.casWins = s.casWins)
    (hp : t.printed = s.printed) (hw : t.workers = s.workers.set w pc) : Inv t := by
  obtain ⟨h1, h2, h3, h4, h5⟩ := h
  refine ⟨by rw [hf, hc]; exact h1, by rw [hf]; exact h2, by rw [hp, hc]; exact h3, ?_,
    by rw [hp]; exact h5⟩
  intro j password hj
  rw [hw, List.getElem?_set] at hj
  rw [hp, hc]
  split at hj
  · split at hj
    · exact absurd (Option.some.inj hj) (hpc password)
    · cases hj
  · exact h4 j password hj

theorem Inv_readerStep (s : Run) (preferDone : Bool) (h : Inv s) :
    Inv (readerStep s preferDone) := by
  unfold readerStep
  split
  · exact h
  · split
    · exact h
    · dsimp only
      split
      · exact h
      · split
        · exact h
        · split
          · exact h
          · exact h

theorem Inv_workerStep (s : Run) (w : Nat) (choice : Bool) (h : Inv s) :
    Inv (workerStep s w choice) := by
  unfold workerStep
  split
  · exact h
  · split
    · exact h
    · dsimp only
      split
      · exact Inv_set s _ w PC.returned (by intro p; simp) h rfl rfl rfl rfl
      · split
        · exact Inv_set s _ w _ (by intro p; simp) h rfl rfl rfl rfl
        · split
          · exact Inv_set s _ w PC.returned (by intro p; simp) h rfl rfl rfl rfl
          · exact h
    · split
      · exact Inv_set s _ w PC.returned (by intro p; simp) h rfl rfl rfl rfl
      · exact Inv_set s _ w _ (by intro p; simp) h rfl rfl rfl rfl
    · split
      · exact Inv_set s _ w _ (by intro p; simp) h rfl rfl rfl rfl
      · exact Inv_set s _ w PC.add (by intro p; simp) h rfl rfl rfl rfl
    · rename_i password hw
      obtain ⟨h1, h2, h3, h4, h5⟩ := h
      split
      · rename_i hfound
        have hcas : s.casWins = [] := by
          rw [hfound] at h1
          exact List.length_eq_zero.1 h1.symm
        have hprinted : s.printed = [] := by
          rcases hpr : s.printed with _ | ⟨r, rest⟩
          · rfl
          · have := h3 r (by rw [hpr]; exact List.mem_cons_self _ _)
            rw [hcas] at this
            cases this
        refine ⟨?_, ?_, ?_, ?_, ?_⟩
        · simp [hcas]
        · exact le_refl _
        · intro r hr
          change r ∈ s.printed at hr
          rw [hprinted] at hr
          cases hr
        · intro j p hj
          refine ⟨hprinted, ?_⟩
          change (s.workers.set w (PC.print password))[j]? = some (PC.print p) at hj
          rw [List.getElem?_set] at hj
          split at hj
          · rename_i hwj
            subst hwj
            exact List.mem_append_right _ (List.mem_singleton_self _)
          · have := (h4 j p hj).2
            rw [hcas] at this
            cases this
        · exact h5
      · exact Inv_set s _ w PC.returned (by intro p; simp) ⟨h1, h2, h3, h4, h5⟩ rfl rfl rfl rfl
    · rename_i password hw
      obtain ⟨h1, h2, h3, h4, h5⟩ := h
      obtain ⟨hprinted, hwin⟩ := h4 w password hw
      have hone : s.casWins = [w] := by
        rcases hcw : s.casWins with _ | ⟨a, _ | ⟨b, rest⟩⟩
        · rw [hcw] at hwin; cases hwin
        · rw [hcw] at hwin
          rw [List.mem_singleton.1 hwin]
        · rw [hcw] at h1
          rw [h1] at h2
          simp at h2
      refine ⟨h1, h2, ?_, ?_, ?_⟩
      · intro r hr
        change r ∈ s.printed ++ [(w, password)] at hr
        rw [hprinted] at hr
        change r.1 ∈ s.casWins
        rw [List.mem_singleton.1 hr]
        exact hwin
      · intro j p hj
        change (s.workers.set w PC.cancel)[j]? = some (PC.print p) at hj
        rw [List.getElem?_set] at hj
        split at hj
        · split at hj <;> cases hj
        · rename_i hne
          have := (h4 j p hj).2
          rw [hone] at this
          exact absurd (List.mem_singleton.1 this).symm hne
      · change (s.printed ++ [(w, password)]).length ≤ 1
        rw [hprinted]
        exact le_refl _
    · exact Inv_set s _ w PC.exit (by intro p; simp) h rfl rfl rfl rfl
    · exact Inv_set s _ w PC.returned (by intro p; simp) h rfl rfl rfl rfl
    · exact Inv_set s _ w PC.select (by intro p; simp) h rfl rfl rfl rfl
    · exact h

theorem Inv_step (s : Run) (e : Event) (h : Inv s) : Inv (step s e) := by
  cases e with
  | reader preferDone => exact Inv_readerStep s preferDone h
  | worker w choice => exact Inv_workerStep s w choice h

theorem Inv_run (schedule : List Event) (s : Run) (h : Inv s) : Inv (run s schedule) := by
  induction schedule generalizing s with
  | nil => exact h
  | cons e rest ih => exact ih (step s e) (Inv_step s e h)

theorem found_le_readerStep (s : Run) (preferDone : Bool) :
    s.found ≤ (readerStep s preferDone).found := by
  unfold readerStep
  split
  · exact le_refl _
  · split
    · exact le_refl _
    · dsimp only
      split
      · exact le_refl _
      · split
        · exact le_refl _
        · split <;> exact le_refl _

theorem found_le_workerStep (s : Run) (w : Nat) (choice : Bool) :
    s.found ≤ (workerStep s w choice).found := by
  unfold workerStep
  split
  · exact le_refl _
  · split
    · exact le_refl _
    · dsimp only
      split
      · exact le_refl _
      · split
        · exact le_refl _
        · split <;> exact le_refl _
    · split <;> exact le_refl _
    · split <;> exact le_refl _
    · split
      · rename_i hfound
        rw [hfound]
        exact Nat.zero_le _
      · exact le_refl _
    · exact le_refl _
    · exact le_refl _
    · exact le_refl _
    · exact le_refl _
    · exact le_refl _

theorem found_le_run (schedule : List Event) (s : Run) : s.found ≤ (run s schedule).found := by
  induction schedule generalizing s with
  | nil => exact le_refl _
  | cons e rest ih =>
    refine le_trans ?_ (ih (step s e))
    cases e with
    | reader preferDone => exact found_le_readerStep s preferDone
    | worker w choice => exact found_le_workerStep s w choice

/-- C10: for every worker count, every list of lines and every schedule of
the goroutines' atomic steps, at most one `Password found` line is printed;
`found` equals the number of compare-and-swaps that succeeded so far, which is
at most 1, and it never goes back (whatever steps follow, it does not
decrease and stays at most 1), so it goes from 0 to 1 at most once; every
printed line comes from a worker whose compare-and-swap succeeded. -/
theorem main_reports_at_most_once (concurrency : Nat) (lines : List (List Char))
    (schedule more : List Event) :
    (run (mainInit concurrency lines) schedule).printed.length ≤ 1 ∧
    (run (mainInit concurrency lines) schedule).casWins.length ≤ 1 ∧
    (run (mainInit concurrency lines) schedule).found
      = (run (mainInit concurrency lines) schedule).casWins.length ∧
    (∀ r ∈ (run (mainInit concurrency lines) schedule).printed,
      r.1 ∈ (run (mainInit concurrency lines) schedule).casWins) ∧
    (run (mainInit concurrency lines) schedule).found
      ≤ (run (run (mainInit concurrency lines) schedule) more).found ∧
    (run (run (mainInit concurrency lines) schedule) more).found ≤ 1 := by
  have h := Inv_run schedule _ (Inv_mainInit concurrency lines)
  have hmore := Inv_run more _ h
  obtain ⟨h1, h2, h3, _, h5⟩ := h
  exact ⟨h5, by rw [← h1]; exact h2, h1, h3, found_le_run more _, hmore.2.1⟩

/-- Two workers whose attempts both succeed: worker 0 wins the
compare-and-swap and prints, worker 1 loses it and returns without
printing. -/
theorem two_successes_one_report :
    (run (mainInit 2 [['x'], ['y']])
      [Event.reader false, Event.reader false, Event.worker 0 false, Event.worker 1 false,
        Event.worker 0 false, Event.worker 1 false, Event.worker 0 true, Event.worker 1 true,
        Event.worker 0 true, Event.worker 1 true, Event.worker 0 true]).printed = [(0, ['x'])] ∧
    (run (mainInit 2 [['x'], ['y']])
      [Event.reader false, Event.reader false, Event.worker 0 false, Event.worker 1 false,
        Event.worker 0 false, Event.worker 1 false, Event.worker 0 true, Event.worker 1 true,
        Event.worker 0 true, Event.worker 1 true, Event.worker 0 true]).workers
      = [PC.cancel, PC.returned] := by
  decide

end VncBrute
